import Mathlib

/-!
Shallow embedding of the engine lifecycle and admission-control layer of
tidb-lightning (`lightning/backend/backend.go`): engine identity derivation,
disk-quota evaluation, the chunked/retried write path, the retried import
path, and the unsafe import-and-reset / close-without-open escape hatches.

Go `error` values are modelled as `Option Err` (`none` = `nil`); an `Err`
carries its retryability classification as declared by the backend.
Backend calls are modelled by oracles (functions from a call counter to a
response), and each embedded operation returns both its Go result and the
trace of backend calls it performed.
-/

namespace LightningBackend

/-- `maxRetryTimes` from backend.go: the fixed retry bound. -/
def maxRetryTimes : Nat := 3

/-- A non-nil Go error value, carrying its classification by the shared
retryability predicate and an opaque payload distinguishing error values. -/
structure Err where
  retryable : Bool
  code : Nat
deriving DecidableEq, Repr

/-- A Go `error` result: `none` is `nil`. -/
abbrev GoErr := Option Err

/-- Modelled from the spec: `common.IsRetryableError` (package
`lightning/common`, not under src/) is described as "a shared predicate on
the error value" classifying errors as retryable transient or fatal; a `nil`
error is not an error and hence not retryable.  The classification of each
non-nil error is carried on the error value itself. -/
def isRetryableError : GoErr → Bool
  | none => false
  | some e => e.retryable

/-- Model of `uuid.UUID` values produced by `uuid.NewSHA1(ns, name)`:
the namespaced-hash application is modelled by recording its two inputs
(namespace and name), so two model UUIDs are equal exactly when the hash
inputs coincide — i.e. identity distinctness "up to hash collision". -/
structure EngineUUID where
  ns : List Char
  name : List Char
deriving DecidableEq, Repr

/-- The fixed namespace constant `engineNamespace` from backend.go. -/
def engineNamespace : List Char := "d68d6abe-c59e-45d6-ade8-e2b0ceb7bedf".data

/-- Decimal digit character, as produced by `fmt.Sprintf("%d", ...)`. -/
def digitChar (d : Nat) : Char := Char.ofNat (48 + d)

/-- Decimal representation of a natural number (most-significant first),
matching Go's `%d` formatting. -/
def natRepr (n : Nat) : List Char :=
  if n = 0 then ['0'] else ((Nat.digits 10 n).map digitChar).reverse

/-- Decimal representation of an integer, matching Go's `%d` formatting of
an `int32` (optional leading minus sign, then digits). -/
def intRepr : Int → List Char
  | .ofNat n => natRepr n
  | .negSucc m => '-' :: natRepr (m + 1)

/-- `makeTag` from backend.go: `fmt.Sprintf("%s:%d", tableName, engineID)`. -/
def makeTag (tableName : List Char) (engineID : Int) : List Char :=
  tableName ++ ':' :: intRepr engineID

/-- `MakeUUID` from backend.go: derives the engine tag and the namespaced
UUID `uuid.NewSHA1(engineNamespace, []byte(tag))`. -/
def MakeUUID (tableName : List Char) (engineID : Int) : List Char × EngineUUID :=
  let tag := makeTag tableName engineID
  (tag, ⟨engineNamespace, tag⟩)

/-- `EngineFileSize` from backend.go. -/
structure EngineFileSize where
  uuid : EngineUUID
  size : Int
  isImporting : Bool
deriving DecidableEq, Repr

/-- The comparator passed to `sort.Slice` in `Backend.CheckDiskQuota`:
`a` sorts before `b` when their importing flags differ and `a` is importing,
otherwise when `a.Size < b.Size`. -/
def engineLess (a b : EngineFileSize) : Bool :=
  if a.isImporting != b.isImporting then a.isImporting
  else decide (a.size < b.size)

/-- The non-strict total preorder induced by `engineLess`, used to model the
result of `sort.Slice` (ties between equal keys are resolved stably in the
model; the Go sort leaves tie order unspecified). -/
def engineLE (a b : EngineFileSize) : Prop := engineLess b a = false

instance : DecidableRel engineLE := fun a b =>
  inferInstanceAs (Decidable (engineLess b a = false))

/-- One iteration of the accumulation loop of `Backend.CheckDiskQuota`: the
running total is incremented by the record's size, and if it then exceeds
the quota the record is classified — importing records bump
`inProgressLargeEngines`, others are appended to `largeEngines`. -/
def cdqStep (quota : Int) (acc : List EngineUUID × Nat × Int)
    (s : EngineFileSize) : List EngineUUID × Nat × Int :=
  let total := acc.2.2 + s.size
  if total > quota then
    if s.isImporting then (acc.1, acc.2.1 + 1, total)
    else (acc.1 ++ [s.uuid], acc.2.1, total)
  else (acc.1, acc.2.1, total)

/-- The accumulation loop of `Backend.CheckDiskQuota` over the sorted engine
sizes, starting from empty results and a zero running total. -/
def checkDiskQuotaFold (quota : Int) (sorted : List EngineFileSize) :
    List EngineUUID × Nat × Int :=
  sorted.foldl (cdqStep quota) ([], 0, 0)

/-- `Backend.CheckDiskQuota` from backend.go: sorts the backend-reported
engine sizes with `engineLess` and runs the accumulation loop.  Returns
`(largeEngines, inProgressLargeEngines, totalSize)`. -/
def CheckDiskQuota (sizes : List EngineFileSize) (quota : Int) :
    List EngineUUID × Nat × Int :=
  checkDiskQuotaFold quota (List.insertionSort engineLE sizes)

/-- Declarative classification of the excess records: walking the sorted
list with a running total, a record is excess exactly when the total after
adding its size exceeds the quota. -/
def excessRecords (quota : Int) : Int → List EngineFileSize → List EngineFileSize
  | _, [] => []
  | total, s :: rest =>
    let t := total + s.size
    (if t > quota then [s] else []) ++ excessRecords quota t rest

/-- The ordering the claim describes for `CheckDiskQuota` (importing records
placed after all non-importing records, then ascending by size); stated
from the claim's words, to be compared against the source comparator. -/
def claimEngineLess (a b : EngineFileSize) : Bool :=
  if a.isImporting != b.isImporting then b.isImporting
  else decide (a.size < b.size)

/-- Non-strict version of `claimEngineLess`. -/
def claimEngineLE (a b : EngineFileSize) : Prop := claimEngineLess b a = false

instance : DecidableRel claimEngineLE := fun a b =>
  inferInstanceAs (Decidable (claimEngineLess b a = false))

/-- `CheckDiskQuota` as the claim describes it: same accumulation loop, but
over the claim's ordering (importing records after non-importing ones). -/
def claimCheckDiskQuota (sizes : List EngineFileSize) (quota : Int) :
    List EngineUUID × Nat × Int :=
  checkDiskQuotaFold quota (List.insertionSort claimEngineLE sizes)

/-! ## The chunked, retried write path (`OpenedEngine.WriteRows`) -/

/-- Outcome of the inner retry loop of `WriteRows` for one chunk:
`continue outside` on success, `return err` on a non-retryable error, or
falling out of the loop with the last (retryable) error. -/
inductive ChunkOutcome where
  | ok
  | fatal (e : Err)
  | exhausted (e : GoErr)
deriving DecidableEq, Repr

/-- Result of `OpenedEngine.WriteRows`: `nil`, a non-retryable backend error
returned unmodified, or the `errors.Annotatef` wrapper produced after
exhausting the retries (recording the wrapped error and the format
arguments: the table name and `maxRetryTimes`). -/
inductive WriteRowsResult where
  | ok
  | err (e : Err)
  | annotated (e : GoErr) (tableName : List Char) (bound : Nat)
deriving DecidableEq, Repr

/-- The inner `for i := 0; i < maxRetryTimes; i++` loop of `WriteRows` for
the chunk at index `k`, with `fuel` iterations remaining and `calls` backend
write calls already issued.  The backend's response to the `c`-th write call
overall is `w c`; the trace records `(chunkIndex, response)` per call.
`fuel = 0` is unreachable: the loop always runs with `fuel = maxRetryTimes`. -/
def writeChunkAttempts (w : Nat → GoErr) (k : Nat) :
    Nat → Nat → ChunkOutcome × List (Nat × GoErr)
  | 0, _ => (.ok, [])
  | 1, calls =>
    match w calls with
    | none => (.ok, [(k, none)])
    | some e =>
      if e.retryable then (.exhausted (some e), [(k, some e)])
      else (.fatal e, [(k, some e)])
  | fuel + 2, calls =>
    match w calls with
    | none => (.ok, [(k, none)])
    | some e =>
      if e.retryable then
        let r := writeChunkAttempts w k (fuel + 1) (calls + 1)
        (r.1, (k, some e) :: r.2)
      else (.fatal e, [(k, some e)])

/-- The outer loop of `OpenedEngine.WriteRows` over the chunk list produced
by `SplitIntoChunks`, starting at chunk index `idx` with `calls` backend
write calls already issued. -/
def writeRowsLoop {ρ : Type} (w : Nat → GoErr) (tableName : List Char) :
    List ρ → Nat → Nat → WriteRowsResult × List (Nat × GoErr)
  | [], _, _ => (.ok, [])
  | _ :: rest, idx, calls =>
    let c := writeChunkAttempts w idx maxRetryTimes calls
    match c.1 with
    | .ok =>
      let r := writeRowsLoop w tableName rest (idx + 1) (calls + c.2.length)
      (r.1, c.2 ++ r.2)
    | .fatal e => (.err e, c.2)
    | .exhausted e => (.annotated e tableName maxRetryTimes, c.2)

/-- The `Rows` interface as consumed by `WriteRows`: an opaque collection
that can be split into size-bounded chunks. -/
structure RowsModel (ρ : Type) where
  splitIntoChunks : ρ → Nat → List ρ

/-- `OpenedEngine.WriteRows` from backend.go: splits `rows` by the backend's
maximum chunk size and writes each chunk sequentially with the per-chunk
retry loop.  Returns the Go result and the trace of backend write calls as
`(chunkIndex, response)` pairs. -/
def WriteRows {ρ : Type} (R : RowsModel ρ) (w : Nat → GoErr)
    (tableName : List Char) (maxChunkSize : Nat) (rows : ρ) :
    WriteRowsResult × List (Nat × GoErr) :=
  writeRowsLoop w tableName (R.splitIntoChunks rows maxChunkSize) 0 0

/-! ## The retried import path (`ClosedEngine.Import`) and the escape
hatches (`UnsafeImportAndReset`, `UnsafeCloseEngine`) -/

/-- A call made by the engine-lifecycle layer against the backend, with the
backend's response, or a retry-delay sleep on the calling thread. -/
inductive BackendEvent where
  | importEngine (u : EngineUUID) (resp : GoErr)
  | resetEngine (u : EngineUUID) (resp : GoErr)
  | closeEngine (u : EngineUUID) (resp : GoErr)
  | sleepRetryDelay
deriving DecidableEq, Repr

/-- Result of `ClosedEngine.Import`: either `return err` from inside the
loop (`err` may be `nil` on success), or the `errors.Annotatef` wrapper
produced after exhausting the retries (recording the wrapped error and the
format arguments: the engine UUID and `maxRetryTimes`). -/
inductive ImportResult where
  | ret (e : GoErr)
  | annotated (e : GoErr) (u : EngineUUID) (bound : Nat)
deriving DecidableEq, Repr

/-- The `for i := 0; i < maxRetryTimes; i++` loop of `ClosedEngine.Import`,
with `fuel` iterations remaining and `calls` import calls already issued.
Each iteration calls `ImportEngine`; a non-retryable result (success
included) is returned at once, a retryable failure is followed by a
`time.Sleep(RetryImportDelay())` before the next iteration (the sleep also
happens after the last retryable attempt, before the annotated error is
returned).  `fuel = 0` is unreachable: the loop runs with
`fuel = maxRetryTimes`. -/
def importAttempts (m : Nat → GoErr) (u : EngineUUID) :
    Nat → Nat → ImportResult × List BackendEvent
  | 0, _ => (.ret none, [])
  | 1, calls =>
    let r := m calls
    if isRetryableError r then
      (.annotated r u maxRetryTimes, [.importEngine u r, .sleepRetryDelay])
    else (.ret r, [.importEngine u r])
  | fuel + 2, calls =>
    let r := m calls
    if isRetryableError r then
      let rec' := importAttempts m u (fuel + 1) (calls + 1)
      (rec'.1, .importEngine u r :: .sleepRetryDelay :: rec'.2)
    else (.ret r, [.importEngine u r])

/-- `ClosedEngine.Import` from backend.go, for the engine with UUID `u`;
`m c` is the backend's response to the `c`-th `ImportEngine` call. -/
def Import (m : Nat → GoErr) (u : EngineUUID) : ImportResult × List BackendEvent :=
  importAttempts m u maxRetryTimes 0

/-- Whether a `ClosedEngine.Import` result is the `nil` error (Go's
`err == nil` test in `UnsafeImportAndReset`); `errors.Annotatef` of the
non-nil error left by an exhausted retry loop is non-nil. -/
def ImportResult.isNil : ImportResult → Bool
  | .ret none => true
  | _ => false

/-- Result of `Backend.UnsafeImportAndReset`: the error of a failed
Import step, otherwise the result of the `ResetEngine` call. -/
inductive UIRResult where
  | importFailed (r : ImportResult)
  | resetResult (e : GoErr)
deriving DecidableEq, Repr

/-- `Backend.UnsafeImportAndReset` from backend.go: builds a `ClosedEngine`
value directly (without any backend `CloseEngine` call), runs `Import`, and
on success calls `ResetEngine`; `resetResp` is the backend's response to
that call. -/
def UnsafeImportAndReset (m : Nat → GoErr) (resetResp : GoErr)
    (u : EngineUUID) : UIRResult × List BackendEvent :=
  let imp := Import m u
  if imp.1.isNil then
    (.resetResult resetResp, imp.2 ++ [.resetEngine u resetResp])
  else (.importFailed imp.1, imp.2)

/-- A `ClosedEngine` handle as carried around by backend.go: the shared
engine struct's logger tag and UUID. -/
structure ClosedEngineH where
  tag : List Char
  uuid : EngineUUID
deriving DecidableEq, Repr

/-- `engine.unsafeClose` from backend.go: one backend `CloseEngine` call;
on success the engine value is wrapped into a `ClosedEngine`. -/
def unsafeClose (closeResp : GoErr) (tag : List Char) (u : EngineUUID) :
    Except Err ClosedEngineH × List BackendEvent :=
  match closeResp with
  | none => (.ok ⟨tag, u⟩, [.closeEngine u none])
  | some e => (.error e, [.closeEngine u (some e)])

/-- `Backend.UnsafeCloseEngineWithUUID` from backend.go. -/
def UnsafeCloseEngineWithUUID (closeResp : GoErr) (tag : List Char)
    (u : EngineUUID) : Except Err ClosedEngineH × List BackendEvent :=
  unsafeClose closeResp tag u

/-- `Backend.UnsafeCloseEngine` from backend.go: derives `(tag, uuid)` via
`MakeUUID` and delegates to `UnsafeCloseEngineWithUUID`. -/
def UnsafeCloseEngine (closeResp : GoErr) (tableName : List Char)
    (engineID : Int) : Except Err ClosedEngineH × List BackendEvent :=
  let p := MakeUUID tableName engineID
  UnsafeCloseEngineWithUUID closeResp p.1 p.2

/-- Whether an engine (identified by `u`) is still open after a trace of
backend calls, given that it was open before: only a successful backend
`CloseEngine` call on `u` seals it. -/
def stillOpen (u : EngineUUID) : List BackendEvent → Bool
  | [] => true
  | .closeEngine u' none :: rest => if u' = u then false else stillOpen u rest
  | _ :: rest => stillOpen u rest

/-- The backend write calls issued for the chunk at index `k`, extracted
from a `WriteRows` call trace. -/
def chunkCalls (k : Nat) (tr : List (Nat × GoErr)) : List (Nat × GoErr) :=
  tr.filter (fun p => p.1 == k)

/-- Whether a backend event is an `ImportEngine` call. -/
def isImportCall : BackendEvent → Bool
  | .importEngine _ _ => true
  | _ => false

/-- A trace discipline: every retryable import failure is immediately
followed by exactly one retry-delay sleep, every sleep immediately follows a
retryable import failure, and a non-retryable import result (success
included) is never followed by a sleep. -/
def sleepsFollowRetryableImports : List BackendEvent → Bool
  | [] => true
  | .importEngine _ r :: rest =>
    if isRetryableError r then
      match rest with
      | .sleepRetryDelay :: rest' => sleepsFollowRetryableImports rest'
      | _ => false
    else
      match rest with
      | .sleepRetryDelay :: _ => false
      | _ => sleepsFollowRetryableImports rest
  | .sleepRetryDelay :: _ => false
  | _ :: rest => sleepsFollowRetryableImports rest

/-- On a list of `(chunkIndex, response)` write calls: every call except the
last received a retryable error (a retry is issued only after a retryable
failure). -/
def retryableExceptLast : List (Nat × GoErr) → Bool
  | [] => true
  | [_] => true
  | p :: q :: rest => isRetryableError p.2 && retryableExceptLast (q :: rest)

/-! ## `Backend.OpenEngine` and the engine-count fault-injection guard -/

/-- The process-wide engine counters (`ImporterEngineCounter` with labels
"open" and "closed"); Prometheus counters hold float64 values incremented
by 1, modelled as naturals (exact for all realistic counts). -/
structure EngineCounters where
  opened : Nat
  closed : Nat
deriving DecidableEq, Repr

/-- Result of `Backend.OpenEngine`: the backend's open error propagated
unmodified, the `FailIfEngineCountExceeds` failpoint panic (recording the
counter readings and the injected ceiling), or the opened-engine handle
(its UUID). -/
inductive OpenEngineResult where
  | err (e : Err)
  | panicked (openCount closedCount : Nat) (ceiling : Int)
  | opened (u : EngineUUID)
deriving DecidableEq, Repr

/-- `Backend.OpenEngine` from backend.go: derives the engine UUID, asks the
backend to open it (`openResp` is the backend's response), increments the
"open" counter, and, when the `FailIfEngineCountExceeds` failpoint is active
with ceiling `n`, panics if the counter readings satisfy
`openCount - closedCount > n`. -/
def OpenEngine (openResp : GoErr) (ctrs : EngineCounters)
    (failpointCeiling : Option Int) (tableName : List Char)
    (engineID : Int) : OpenEngineResult × EngineCounters :=
  let u := (MakeUUID tableName engineID).2
  match openResp with
  | some e => (.err e, ctrs)
  | none =>
    let ctrs' : EngineCounters := ⟨ctrs.opened + 1, ctrs.closed⟩
    match failpointCeiling with
    | some n =>
      if (ctrs'.opened : Int) - (ctrs'.closed : Int) > n then
        (.panicked ctrs'.opened ctrs'.closed n, ctrs')
      else (.opened u, ctrs')
    | none => (.opened u, ctrs')

/-! ## Concrete example data (spec §8, property 4) -/

/-- Example engine identity "A". -/
def uA : EngineUUID := ⟨['n'], ['a']⟩

/-- Example engine identity "B". -/
def uB : EngineUUID := ⟨['n'], ['b']⟩

/-- Example engine identity "C". -/
def uC : EngineUUID := ⟨['n'], ['c']⟩

/-- The engine size report `[{A,10,false},{B,30,false},{C,5,true}]`. -/
def exSizes : List EngineFileSize :=
  [⟨uA, 10, false⟩, ⟨uB, 30, false⟩, ⟨uC, 5, true⟩]

instance : IsTotal EngineFileSize engineLE :=
  ⟨by
    rintro ⟨ua, sa, ia⟩ ⟨ub, sb, ib⟩
    cases ia <;> cases ib <;>
      simp [engineLE, engineLess, decide_eq_false_iff_not] <;> omega⟩

instance : IsTrans EngineFileSize engineLE :=
  ⟨by
    rintro ⟨ua, sa, ia⟩ ⟨ub, sb, ib⟩ ⟨uc, sc, ic⟩
    cases ia <;> cases ib <;> cases ic <;>
      simp [engineLE, engineLess, decide_eq_false_iff_not] <;> omega⟩

end LightningBackend

namespace LightningBackend

/-! ## Theorems -/

/-- The accumulation loop of `CheckDiskQuota`, started from arbitrary
accumulated results and running total, computes the declarative excess
classification: candidates are the non-importing excess records' UUIDs in
order, the in-progress count is the number of importing excess records, and
the total is the sum of all sizes. -/
theorem checkDiskQuotaFold_spec (quota : Int) (l : List EngineFileSize) :
    ∀ (large : List EngineUUID) (inProg : Nat) (total : Int),
    List.foldl (cdqStep quota) (large, inProg, total) l =
      (large ++ ((excessRecords quota total l).filter
          fun s => !s.isImporting).map EngineFileSize.uuid,
       inProg + ((excessRecords quota total l).filter
          fun s => s.isImporting).length,
       total + (l.map EngineFileSize.size).sum) := by
  induction l with
  | nil => intro large inProg total; simp [excessRecords]
  | cons s l ih =>
    intro large inProg total
    rw [List.foldl_cons]
    by_cases h : total + s.size > quota
    · by_cases hi : s.isImporting
      · rw [show cdqStep quota (large, inProg, total) s
            = (large, inProg + 1, total + s.size) by simp [cdqStep, h, hi]]
        rw [ih]
        simp [excessRecords, h, hi]
        omega
      · rw [show cdqStep quota (large, inProg, total) s
            = (large ++ [s.uuid], inProg, total + s.size) by
              simp [cdqStep, h, hi]]
        rw [ih]
        simp [excessRecords, h, hi]
        omega
    · rw [show cdqStep quota (large, inProg, total) s
          = (large, inProg, total + s.size) by simp [cdqStep, h]]
      rw [ih]
      simp [excessRecords, h]
      omega

/-- C1 counterexample: the procedure described by the claim (importing
records sorted after all non-importing records) disagrees with
`Backend.CheckDiskQuota` as implemented, on the concrete size report
`[{A,10,false},{B,30,false},{C,5,true}]` with quota 20: the code sorts the
importing records first, so C is never classified as excess and
`inProgressLargeEngines` is 0, while the claim's ordering yields 1. -/
theorem c1_counterexample : claimCheckDiskQuota exSizes 20 ≠ CheckDiskQuota exSizes 20 := by
  decide

/-- C1 (amended): `CheckDiskQuota` sorts the engine size records ascending
by size except that every record flagged as importing is placed before all
non-importing records (the comparator orders by importing-status first, then
size); accumulating sizes in that order, every record at which the running
total exceeds the quota is classified as excess: importing excess records
are only counted in `inProgressLargeEngines`, non-importing excess records
are appended in order to the returned `largeEngines` list, and `totalSize`
is the sum of all reported sizes. -/
theorem c1_checkDiskQuota_spec (sizes : List EngineFileSize) (quota : Int) :
    (List.insertionSort engineLE sizes).Perm sizes
    ∧ List.Sorted engineLE (List.insertionSort engineLE sizes)
    ∧ (∀ a b, engineLE a b ↔
        ((a.isImporting = true ∧ b.isImporting = false)
          ∨ (a.isImporting = b.isImporting ∧ a.size ≤ b.size)))
    ∧ CheckDiskQuota sizes quota =
        (((excessRecords quota 0 (List.insertionSort engineLE sizes)).filter
            fun s => !s.isImporting).map EngineFileSize.uuid,
         ((excessRecords quota 0 (List.insertionSort engineLE sizes)).filter
            fun s => s.isImporting).length,
         (sizes.map EngineFileSize.size).sum) := by
  refine ⟨List.perm_insertionSort _ _, List.sorted_insertionSort _ _, ?_, ?_⟩
  · rintro ⟨ua, sa, ia⟩ ⟨ub, sb, ib⟩
    cases ia <;> cases ib <;>
      simp [engineLE, engineLess, decide_eq_false_iff_not]
  · rw [CheckDiskQuota, checkDiskQuotaFold, checkDiskQuotaFold_spec]
    have hsum : ((List.insertionSort engineLE sizes).map EngineFileSize.size).sum
        = (sizes.map EngineFileSize.size).sum :=
      ((List.perm_insertionSort engineLE sizes).map EngineFileSize.size).sum_eq
    simp [hsum]

/-- C2 counterexample: on the size report
`[{A,10,false},{B,30,false},{C,5,true}]` with quota 20, `CheckDiskQuota`
does not return `inProgressLargeEngines = 1` as the claim states (as the
importing engine C sorts first and never exceeds the quota). -/
theorem c2_counterexample :
    CheckDiskQuota exSizes 20 ≠ ([uB], 1, 45) := by
  decide

/-- C2 (amended): on the size report
`[{A,10,false},{B,30,false},{C,5,true}]` with quota 20, `CheckDiskQuota`
returns `largeEngines = [B]`, `inProgressLargeEngines = 0`,
`totalSize = 45`. -/
theorem c2_checkDiskQuota_example :
    CheckDiskQuota exSizes 20 = ([uB], 0, 45) := by
  decide

/-- C7: with the `FailIfEngineCountExceeds` failpoint active with ceiling
`n` and the backend open call succeeding, `OpenEngine` increments the
opened-engine counter and then panics exactly when the opened-engine counter
minus the closed-engine counter strictly exceeds `n`; when the difference is
at or below `n` it returns the opened-engine handle instead. -/
theorem c7_engine_count_guard (ctrs : EngineCounters) (n : Int)
    (tableName : List Char) (engineID : Int) :
    (OpenEngine none ctrs (some n) tableName engineID).2
      = ⟨ctrs.opened + 1, ctrs.closed⟩
    ∧ ((OpenEngine none ctrs (some n) tableName engineID).1
        = .panicked (ctrs.opened + 1) ctrs.closed n
        ↔ ((ctrs.opened + 1 : Nat) : Int) - (ctrs.closed : Int) > n)
    ∧ (((ctrs.opened + 1 : Nat) : Int) - (ctrs.closed : Int) ≤ n →
        (OpenEngine none ctrs (some n) tableName engineID).1
          = .opened (MakeUUID tableName engineID).2) := by
  simp only [OpenEngine]
  split_ifs with h
  · refine ⟨rfl, ⟨fun _ => by omega, fun _ => rfl⟩, fun hle => by exfalso; omega⟩
  · refine ⟨rfl, ⟨fun heq => absurd heq (by simp), fun hc => by exfalso; omega⟩,
      fun _ => rfl⟩

/-- C7 witness: with counters (0 opened, 0 closed) and ceiling 5, opening an
engine does not trip the guard and yields the opened handle. -/
theorem c7_engine_count_guard_witness :
    (OpenEngine none ⟨0, 0⟩ (some 5) [] 0).1 = .opened (MakeUUID [] 0).2 :=
  (c7_engine_count_guard ⟨0, 0⟩ 5 [] 0).2.2 (by decide)

/-- C9: when splitting the rows by the backend's maximum chunk size yields
an empty chunk list, `WriteRows` returns `nil` success with an empty backend
write trace (the backend's write operation is never invoked). -/
theorem c9_writeRows_empty_split {ρ : Type} (R : RowsModel ρ)
    (w : Nat → GoErr) (tableName : List Char) (maxChunkSize : Nat) (rows : ρ)
    (h : R.splitIntoChunks rows maxChunkSize = []) :
    WriteRows R w tableName maxChunkSize rows = (.ok, []) := by
  rw [WriteRows, h, writeRowsLoop]

/-- C9 witness: a rows collection whose split is empty makes `WriteRows`
succeed with no backend write calls. -/
theorem c9_writeRows_empty_split_witness :
    WriteRows (⟨fun _ _ => []⟩ : RowsModel Unit) (fun _ => none) [] 0 ()
      = (.ok, []) :=
  c9_writeRows_empty_split _ _ _ _ _ rfl

/-- C10: `UnsafeCloseEngine(ctx, tableName, engineID)` returns exactly the
result of `UnsafeCloseEngineWithUUID(ctx, tag, uuid)` for
`(tag, uuid) = MakeUUID(tableName, engineID)`; both perform exactly one
backend `CloseEngine` call on the derived identity, returning a
`ClosedEngine` on success and the backend's error on failure. -/
theorem c10_unsafeCloseEngine_equiv (closeResp : GoErr)
    (tableName : List Char) (engineID : Int) :
    UnsafeCloseEngine closeResp tableName engineID
      = UnsafeCloseEngineWithUUID closeResp (MakeUUID tableName engineID).1
          (MakeUUID tableName engineID).2
    ∧ (UnsafeCloseEngine closeResp tableName engineID).2
      = [.closeEngine (MakeUUID tableName engineID).2 closeResp]
    ∧ (closeResp = none →
        (UnsafeCloseEngine closeResp tableName engineID).1
          = .ok ⟨(MakeUUID tableName engineID).1, (MakeUUID tableName engineID).2⟩)
    ∧ (∀ e, closeResp = some e →
        (UnsafeCloseEngine closeResp tableName engineID).1 = .error e) := by
  cases closeResp <;>
    simp [UnsafeCloseEngine, UnsafeCloseEngineWithUUID, unsafeClose, MakeUUID]

/-- C10 witness: closing engine ("t", 0) with a succeeding backend close
yields the `ClosedEngine` handle carrying the derived tag and UUID. -/
theorem c10_unsafeCloseEngine_equiv_witness :
    (UnsafeCloseEngine none ['t'] 0).1
      = .ok ⟨(MakeUUID ['t'] 0).1, (MakeUUID ['t'] 0).2⟩ :=
  (c10_unsafeCloseEngine_equiv none ['t'] 0).2.2.1 rfl


theorem digitChar_inj : ∀ d1 < 10, ∀ d2 < 10, digitChar d1 = digitChar d2 → d1 = d2 := by
  decide

theorem digitChar_ne_colon : ∀ d < 10, digitChar d ≠ ':' := by decide

theorem digitChar_ne_dash : ∀ d < 10, digitChar d ≠ '-' := by decide

theorem mem_natRepr_isDigit {n : ℕ} {c : Char} (hc : c ∈ natRepr n) :
    ∃ d, d < 10 ∧ c = digitChar d := by
  unfold natRepr at hc
  split at hc
  · simp at hc
    exact ⟨0, by norm_num, by rw [hc]; rfl⟩
  · rw [List.mem_reverse] at hc
    obtain ⟨d, hd, rfl⟩ := List.mem_map.mp hc
    exact ⟨d, Nat.digits_lt_base (by norm_num) hd, rfl⟩

theorem colon_not_mem_natRepr (n : ℕ) : ':' ∉ natRepr n := by
  intro h
  obtain ⟨d, hd, he⟩ := mem_natRepr_isDigit h
  exact digitChar_ne_colon d hd he.symm

theorem dash_not_mem_natRepr (n : ℕ) : '-' ∉ natRepr n := by
  intro h
  obtain ⟨d, hd, he⟩ := mem_natRepr_isDigit h
  exact digitChar_ne_dash d hd he.symm

theorem colon_not_mem_intRepr (i : ℤ) : ':' ∉ intRepr i := by
  cases i with
  | ofNat n => exact colon_not_mem_natRepr n
  | negSucc m =>
    intro h
    rcases List.mem_cons.mp h with h | h
    · exact absurd h.symm (by decide)
    · exact colon_not_mem_natRepr _ h

theorem map_digitChar_inj (l1 : List ℕ) : ∀ (l2 : List ℕ),
    (∀ d ∈ l1, d < 10) → (∀ d ∈ l2, d < 10) →
    l1.map digitChar = l2.map digitChar → l1 = l2 := by
  induction l1 with
  | nil => intro l2 _ _ h; cases l2 <;> simp_all
  | cons a l1 ih =>
    intro l2 h1 h2 h
    cases l2 with
    | nil => simp at h
    | cons b l2 =>
      simp only [List.map_cons, List.cons.injEq] at h
      have ha := digitChar_inj a (h1 a (by simp)) b (h2 b (by simp)) h.1
      have ht := ih l2 (fun d hd => h1 d (by simp [hd]))
        (fun d hd => h2 d (by simp [hd])) h.2
      rw [ha, ht]

theorem natRepr_inj {n m : ℕ} (h : natRepr n = natRepr m) : n = m := by
  by_cases hn : n = 0 <;> by_cases hm : m = 0
  · rw [hn, hm]
  · exfalso
    unfold natRepr at h
    rw [if_pos hn, if_neg hm] at h
    have h' : (Nat.digits 10 m).map digitChar = ['0'] := by
      have := congrArg List.reverse h
      simpa using this.symm
    have : Nat.digits 10 m = [0] :=
      map_digitChar_inj _ [0]
        (fun d hd => Nat.digits_lt_base (by norm_num) hd)
        (by intro d hd; simp at hd; omega) (by rw [h']; rfl)
    have hm0 := congrArg (Nat.ofDigits 10) this
    rw [Nat.ofDigits_digits] at hm0
    simp [Nat.ofDigits] at hm0
    exact hm hm0
  · exfalso
    unfold natRepr at h
    rw [if_neg hn, if_pos hm] at h
    have h' : (Nat.digits 10 n).map digitChar = ['0'] := by
      have := congrArg List.reverse h
      simpa using this
    have : Nat.digits 10 n = [0] :=
      map_digitChar_inj _ [0]
        (fun d hd => Nat.digits_lt_base (by norm_num) hd)
        (by intro d hd; simp at hd; omega) (by rw [h']; rfl)
    have hn0 := congrArg (Nat.ofDigits 10) this
    rw [Nat.ofDigits_digits] at hn0
    simp [Nat.ofDigits] at hn0
    exact hn hn0
  · unfold natRepr at h
    rw [if_neg hn, if_neg hm] at h
    have h' := List.reverse_injective h
    have hd : Nat.digits 10 n = Nat.digits 10 m :=
      map_digitChar_inj _ _
        (fun d hd => Nat.digits_lt_base (by norm_num) hd)
        (fun d hd => Nat.digits_lt_base (by norm_num) hd) h'
    have := congrArg (Nat.ofDigits 10) hd
    rwa [Nat.ofDigits_digits, Nat.ofDigits_digits] at this

theorem intRepr_inj {i j : ℤ} (h : intRepr i = intRepr j) : i = j := by
  cases i with
  | ofNat n =>
    cases j with
    | ofNat m => exact congrArg Int.ofNat (natRepr_inj h)
    | negSucc m =>
      simp only [intRepr] at h
      exact absurd (h ▸ List.mem_cons_self '-' (natRepr (m + 1)))
        (dash_not_mem_natRepr n)
  | negSucc n =>
    cases j with
    | ofNat m =>
      simp only [intRepr] at h
      exact absurd (h.symm ▸ List.mem_cons_self '-' (natRepr (n + 1)))
        (dash_not_mem_natRepr m)
    | negSucc m =>
      simp only [intRepr, List.cons.injEq, true_and] at h
      have hnm := natRepr_inj h
      have : n = m := by omega
      rw [this]

theorem colon_split (ps : List Char) : ∀ (qs us vs : List Char),
    ':' ∉ ps → ':' ∉ qs → ps ++ ':' :: us = qs ++ ':' :: vs →
    ps = qs ∧ us = vs := by
  induction ps with
  | nil =>
    intro qs us vs _ hq h
    cases qs with
    | nil => simpa using h
    | cons b qs' =>
      simp only [List.nil_append, List.cons_append, List.cons.injEq] at h
      exact absurd (h.1 ▸ List.mem_cons_self b qs') hq
  | cons a ps' ih =>
    intro qs us vs hp hq h
    cases qs with
    | nil =>
      simp only [List.cons_append, List.nil_append, List.cons.injEq] at h
      exact absurd (h.1 ▸ List.mem_cons_self a ps') hp
    | cons b qs' =>
      simp only [List.cons_append, List.cons.injEq] at h
      obtain ⟨he, hu⟩ := ih qs' us vs
        (fun hm => hp (List.mem_cons_of_mem a hm))
        (fun hm => hq (List.mem_cons_of_mem b hm)) h.2
      exact ⟨by rw [h.1, he], hu⟩

theorem makeTag_inj {t1 t2 : List Char} {e1 e2 : ℤ}
    (h : makeTag t1 e1 = makeTag t2 e2) : t1 = t2 ∧ e1 = e2 := by
  have hr := congrArg List.reverse h
  simp only [makeTag, List.reverse_append, List.reverse_cons,
    List.append_assoc, List.singleton_append] at hr
  obtain ⟨h1, h2⟩ := colon_split _ _ _ _
    (by rw [List.mem_reverse]; exact colon_not_mem_intRepr e1)
    (by rw [List.mem_reverse]; exact colon_not_mem_intRepr e2) hr
  refine ⟨List.reverse_injective h2, intRepr_inj (List.reverse_injective h1)⟩

/-- C6: engine identity derivation is a deterministic pure function of
`(tableName, engineID)`: the derived identity (modelled as the namespaced
hash input, i.e. up to hash collision) is equal exactly when the inputs are
equal — same inputs always yield the same identity, and distinct inputs
yield distinct identities. -/
theorem c6_makeUUID_deterministic_injective (t1 : List Char) (e1 : ℤ) (t2 : List Char) (e2 : ℤ) :
    (MakeUUID t1 e1).2 = (MakeUUID t2 e2).2 ↔ t1 = t2 ∧ e1 = e2 := by
  constructor
  · intro h
    simp only [MakeUUID, EngineUUID.mk.injEq] at h
    exact makeTag_inj h.2
  · rintro ⟨rfl, rfl⟩; rfl


theorem getLast?_cons_ne_nil {α : Type} (a : α) {l : List α} (h : l ≠ []) :
    (a :: l).getLast? = l.getLast? := by
  cases l with
  | nil => exact absurd rfl h
  | cons b t => exact List.getLast?_cons_cons

theorem importAttempts_events (m : Nat → GoErr) (u : EngineUUID) :
    ∀ fuel calls, ∀ ev ∈ (importAttempts m u fuel calls).2,
      (∃ r, ev = .importEngine u r) ∨ ev = .sleepRetryDelay
  | 0, calls => by simp [importAttempts]
  | 1, calls => by
    by_cases hr : isRetryableError (m calls) <;>
      simp [importAttempts, hr]
  | fuel + 2, calls => by
    by_cases hr : isRetryableError (m calls)
    · intro ev hev
      simp only [importAttempts, hr, if_true, List.mem_cons] at hev
      rcases hev with rfl | rfl | hev
      · exact .inl ⟨_, rfl⟩
      · exact .inr rfl
      · exact importAttempts_events m u (fuel + 1) (calls + 1) ev hev
    · intro ev hev
      simp only [importAttempts, hr, if_false, List.mem_cons] at hev
      simp at hev
      exact .inl ⟨_, hev⟩

theorem importAttempts_count (m : Nat → GoErr) (u : EngineUUID) :
    ∀ fuel calls,
      (importAttempts m u fuel calls).2.countP isImportCall ≤ fuel
      ∧ (1 ≤ fuel → 1 ≤ (importAttempts m u fuel calls).2.countP isImportCall)
  | 0, calls => by simp [importAttempts]
  | 1, calls => by
    by_cases hr : isRetryableError (m calls) <;>
      simp [importAttempts, hr, isImportCall, List.countP_cons]
  | fuel + 2, calls => by
    have ih := importAttempts_count m u (fuel + 1) (calls + 1)
    by_cases hr : isRetryableError (m calls) <;>
      simp [importAttempts, hr, isImportCall, List.countP_cons] <;> omega

theorem importAttempts_sleeps (m : Nat → GoErr) (u : EngineUUID) :
    ∀ fuel calls,
      sleepsFollowRetryableImports (importAttempts m u fuel calls).2 = true
  | 0, calls => by simp [importAttempts, sleepsFollowRetryableImports]
  | 1, calls => by
    by_cases hr : isRetryableError (m calls) <;>
      simp [importAttempts, hr, sleepsFollowRetryableImports]
  | fuel + 2, calls => by
    have ih := importAttempts_sleeps m u (fuel + 1) (calls + 1)
    by_cases hr : isRetryableError (m calls) <;>
      simp [importAttempts, hr, sleepsFollowRetryableImports, ih]

theorem importAttempts_trace_ne_nil (m : Nat → GoErr) (u : EngineUUID)
    (fuel calls : Nat) (h : 1 ≤ fuel) :
    (importAttempts m u fuel calls).2 ≠ [] := by
  intro hnil
  have := (importAttempts_count m u fuel calls).2 h
  rw [hnil] at this
  simp at this

theorem importAttempts_ret (m : Nat → GoErr) (u : EngineUUID) :
    ∀ fuel calls r, 1 ≤ fuel → (importAttempts m u fuel calls).1 = .ret r →
      isRetryableError r = false
      ∧ (importAttempts m u fuel calls).2.getLast? = some (.importEngine u r)
  | 0, _, _, h, _ => absurd h (by norm_num)
  | 1, calls, r, _, heq => by
    by_cases hr : isRetryableError (m calls) <;>
      simp [importAttempts, hr] at heq ⊢
    · rw [← heq]; exact ⟨by simpa using hr, rfl⟩
  | fuel + 2, calls, r, _, heq => by
    by_cases hr : isRetryableError (m calls)
    · simp only [importAttempts, hr, if_true] at heq ⊢
      have ih := importAttempts_ret m u (fuel + 1) (calls + 1) r (by omega) heq
      refine ⟨ih.1, ?_⟩
      have hne := importAttempts_trace_ne_nil m u (fuel + 1) (calls + 1) (by omega)
      rw [List.getLast?_cons_cons, getLast?_cons_ne_nil _ hne]
      exact ih.2
    · simp only [importAttempts, hr, Bool.false_eq_true, if_false] at heq ⊢
      have hmr : m calls = r := by simpa using heq
      subst hmr
      exact ⟨by simpa using hr, by simp⟩

theorem importAttempts_annotated (m : Nat → GoErr) (u : EngineUUID) :
    ∀ fuel calls r u' b,
      (importAttempts m u fuel calls).1 = .annotated r u' b →
      u' = u ∧ b = maxRetryTimes ∧ isRetryableError r = true
      ∧ (importAttempts m u fuel calls).2.countP isImportCall = fuel
  | 0, calls, r, u', b, heq => by simp [importAttempts] at heq
  | 1, calls, r, u', b, heq => by
    by_cases hr : isRetryableError (m calls) <;>
      simp [importAttempts, hr] at heq
    obtain ⟨rfl, rfl, rfl⟩ := heq
    simp [importAttempts, hr, isImportCall, List.countP_cons]
  | fuel + 2, calls, r, u', b, heq => by
    by_cases hr : isRetryableError (m calls)
    · simp only [importAttempts, hr, if_true] at heq ⊢
      have ih := importAttempts_annotated m u (fuel + 1) (calls + 1) r u' b heq
      refine ⟨ih.1, ih.2.1, ih.2.2.1, ?_⟩
      simp [isImportCall, List.countP_cons, ih.2.2.2]
    · simp [importAttempts, hr] at heq


theorem stillOpen_of_no_close (u : EngineUUID) :
    ∀ tr : List BackendEvent, (∀ u', BackendEvent.closeEngine u' none ∉ tr) →
      stillOpen u tr = true
  | [], _ => rfl
  | ev :: rest, h => by
    have hrest : ∀ u', BackendEvent.closeEngine u' none ∉ rest :=
      fun u' hm => h u' (List.mem_cons_of_mem ev hm)
    cases ev with
    | closeEngine u' r =>
      cases r with
      | none => exact absurd (List.mem_cons_self _ _) (h u')
      | some e => simpa [stillOpen] using stillOpen_of_no_close u rest hrest
    | importEngine u' r => simpa [stillOpen] using stillOpen_of_no_close u rest hrest
    | resetEngine u' r => simpa [stillOpen] using stillOpen_of_no_close u rest hrest
    | sleepRetryDelay => simpa [stillOpen] using stillOpen_of_no_close u rest hrest

theorem close_not_mem_import_trace (m : Nat → GoErr) (u : EngineUUID)
    (fuel calls : Nat) (u' : EngineUUID) (r : GoErr) :
    BackendEvent.closeEngine u' r ∉ (importAttempts m u fuel calls).2 := by
  intro hm
  rcases importAttempts_events m u fuel calls _ hm with ⟨r', h⟩ | h <;> simp at h

theorem reset_not_mem_import_trace (m : Nat → GoErr) (u : EngineUUID)
    (fuel calls : Nat) (u' : EngineUUID) (r : GoErr) :
    BackendEvent.resetEngine u' r ∉ (importAttempts m u fuel calls).2 := by
  intro hm
  rcases importAttempts_events m u fuel calls _ hm with ⟨r', h⟩ | h <;> simp at h

/-- C4: `ClosedEngine.Import` makes between 1 and `maxRetryTimes` (= 3)
backend import attempts; in its backend trace every retryable failure is
immediately followed by the backend-declared retry-delay sleep and every
sleep immediately follows a retryable failure; as soon as an attempt yields
a non-retryable result (success included) that result is returned with the
attempt as the last trace event (no sleep, no further attempt after it);
and an annotated error is returned only with the engine identity `u` and
the retry bound 3, after exactly 3 attempts all failing retryably. -/
theorem c4_import_retry (m : Nat → GoErr) (u : EngineUUID) :
    (1 ≤ (Import m u).2.countP isImportCall
      ∧ (Import m u).2.countP isImportCall ≤ maxRetryTimes)
    ∧ sleepsFollowRetryableImports (Import m u).2 = true
    ∧ (∀ r, (Import m u).1 = .ret r →
        isRetryableError r = false
        ∧ (Import m u).2.getLast? = some (.importEngine u r))
    ∧ (∀ r u' b, (Import m u).1 = .annotated r u' b →
        u' = u ∧ b = maxRetryTimes ∧ isRetryableError r = true
        ∧ (Import m u).2.countP isImportCall = maxRetryTimes) := by
  simp only [Import]
  exact ⟨⟨(importAttempts_count m u maxRetryTimes 0).2 (by decide),
      (importAttempts_count m u maxRetryTimes 0).1⟩,
    importAttempts_sleeps m u maxRetryTimes 0,
    fun r h => importAttempts_ret m u maxRetryTimes 0 r (by decide) h,
    fun r u' b h => importAttempts_annotated m u maxRetryTimes 0 r u' b h⟩

/-- C4 witness: a backend whose first import attempt succeeds makes
`Import` return `nil` with the successful attempt as the last event. -/
theorem c4_import_retry_witness :
    isRetryableError none = false
    ∧ (Import (fun _ => none) uA).2.getLast? = some (.importEngine uA none) :=
  (c4_import_retry (fun _ => none) uA).2.2.1 none rfl

/-- C5: `UnsafeImportAndReset` never invokes the backend's close operation
(no `CloseEngine` event ever appears in its backend trace), so an engine
open beforehand is still open afterwards; and when it returns success it
has invoked the backend import operation (at least once) followed by the
backend reset operation on that engine, the reset being the final backend
call. -/
theorem c5_unsafeImportAndReset (m : Nat → GoErr) (resetResp : GoErr) (u : EngineUUID) :
    (∀ u' r, BackendEvent.closeEngine u' r ∉ (UnsafeImportAndReset m resetResp u).2)
    ∧ stillOpen u (UnsafeImportAndReset m resetResp u).2 = true
    ∧ ((UnsafeImportAndReset m resetResp u).1 = .resetResult none →
        (UnsafeImportAndReset m resetResp u).2
          = (Import m u).2 ++ [.resetEngine u none]
        ∧ (Import m u).1 = .ret none
        ∧ 1 ≤ (Import m u).2.countP isImportCall
        ∧ (UnsafeImportAndReset m resetResp u).2.getLast?
            = some (.resetEngine u none)) := by
  have hnoclose : ∀ u' r,
      BackendEvent.closeEngine u' r ∉ (UnsafeImportAndReset m resetResp u).2 := by
    intro u' r hm
    unfold UnsafeImportAndReset at hm
    cases hnil : (Import m u).1.isNil
    · simp only [hnil, Bool.false_eq_true, if_false] at hm
      exact close_not_mem_import_trace m u maxRetryTimes 0 u' r hm
    · simp only [hnil, if_true, List.mem_append, List.mem_singleton] at hm
      rcases hm with hm | hm
      · exact close_not_mem_import_trace m u maxRetryTimes 0 u' r hm
      · exact absurd hm (by simp)
  refine ⟨hnoclose, stillOpen_of_no_close u _ (fun u' => hnoclose u' none), ?_⟩
  intro hres
  unfold UnsafeImportAndReset at hres ⊢
  cases hnil : (Import m u).1.isNil
  · simp only [hnil, Bool.false_eq_true, if_false] at hres
    simp at hres
  · simp only [hnil, if_true] at hres ⊢
    have hresetResp : resetResp = none := by simpa using hres
    subst hresetResp
    have hret : (Import m u).1 = .ret none := by
      revert hnil
      unfold ImportResult.isNil
      cases (Import m u).1 with
      | ret e => cases e <;> simp
      | annotated e u' b => simp
    exact ⟨rfl, hret,
      (importAttempts_count m u maxRetryTimes 0).2 (by decide),
      by rw [List.getLast?_concat]⟩

/-- C5 witness: with a backend whose import and reset both succeed,
`UnsafeImportAndReset` succeeds, its trace is the import attempts followed
by the reset call, and the reset is the last backend call. -/
theorem c5_unsafeImportAndReset_witness :
    (UnsafeImportAndReset (fun _ => none) none uA).2
      = (Import (fun _ => none) uA).2 ++ [.resetEngine uA none]
    ∧ (Import (fun _ => none) uA).1 = .ret none
    ∧ 1 ≤ (Import (fun _ => none) uA).2.countP isImportCall
    ∧ (UnsafeImportAndReset (fun _ => none) none uA).2.getLast?
        = some (.resetEngine uA none) :=
  (c5_unsafeImportAndReset (fun _ => none) none uA).2.2 rfl

/-- C8: when the import step inside `UnsafeImportAndReset` returns an
error, `UnsafeImportAndReset` returns exactly that import result, and the
backend's `ResetEngine` operation is never invoked (no reset event appears
in the backend trace). -/
theorem c8_unsafeImportAndReset_failure (m : Nat → GoErr) (resetResp : GoErr)
    (u : EngineUUID) (h : (Import m u).1.isNil = false) :
    (UnsafeImportAndReset m resetResp u).1 = .importFailed (Import m u).1
    ∧ (UnsafeImportAndReset m resetResp u).2 = (Import m u).2
    ∧ (∀ u' r, BackendEvent.resetEngine u' r ∉ (UnsafeImportAndReset m resetResp u).2) := by
  unfold UnsafeImportAndReset
  simp only [h, Bool.false_eq_true, if_false]
  refine ⟨by trivial, by trivial,
    fun u' r => reset_not_mem_import_trace m u maxRetryTimes 0 u' r⟩

/-- C8 witness: with a backend whose import fails with a non-retryable
error, `UnsafeImportAndReset` returns the failed import result. -/
theorem c8_unsafeImportAndReset_failure_witness :
    (UnsafeImportAndReset (fun _ => some ⟨false, 7⟩) none uA).1
      = .importFailed (Import (fun _ => some ⟨false, 7⟩) uA).1 :=
  (c8_unsafeImportAndReset_failure (fun _ => some ⟨false, 7⟩) none uA rfl).1

theorem writeChunkAttempts_fst (w : Nat → GoErr) (k : Nat) :
    ∀ fuel calls, ∀ p ∈ (writeChunkAttempts w k fuel calls).2, p.1 = k
  | 0, calls => by simp [writeChunkAttempts]
  | 1, calls => by
    cases hw : w calls with
    | none => simp [writeChunkAttempts, hw]
    | some e =>
      by_cases hr : e.retryable <;> simp [writeChunkAttempts, hw, hr]
  | fuel + 2, calls => by
    cases hw : w calls with
    | none => simp [writeChunkAttempts, hw]
    | some e =>
      by_cases hr : e.retryable
      · intro p hp
        simp only [writeChunkAttempts, hw, hr, if_true, List.mem_cons] at hp
        rcases hp with rfl | hp
        · rfl
        · exact writeChunkAttempts_fst w k (fuel + 1) (calls + 1) p hp
      · simp [writeChunkAttempts, hw, hr]

theorem writeChunkAttempts_length (w : Nat → GoErr) (k : Nat) :
    ∀ fuel calls, (writeChunkAttempts w k fuel calls).2.length ≤ fuel
      ∧ (1 ≤ fuel → 1 ≤ (writeChunkAttempts w k fuel calls).2.length)
  | 0, calls => by simp [writeChunkAttempts]
  | 1, calls => by
    cases hw : w calls with
    | none => simp [writeChunkAttempts, hw]
    | some e =>
      by_cases hr : e.retryable <;> simp [writeChunkAttempts, hw, hr]
  | fuel + 2, calls => by
    have ih := writeChunkAttempts_length w k (fuel + 1) (calls + 1)
    cases hw : w calls with
    | none => simp [writeChunkAttempts, hw]
    | some e =>
      by_cases hr : e.retryable <;>
        simp [writeChunkAttempts, hw, hr] <;> omega

theorem writeChunkAttempts_retryable (w : Nat → GoErr) (k : Nat) :
    ∀ fuel calls,
      retryableExceptLast (writeChunkAttempts w k fuel calls).2 = true
  | 0, calls => by simp [writeChunkAttempts, retryableExceptLast]
  | 1, calls => by
    cases hw : w calls with
    | none => simp [writeChunkAttempts, hw, retryableExceptLast]
    | some e =>
      by_cases hr : e.retryable <;>
        simp [writeChunkAttempts, hw, hr, retryableExceptLast]
  | fuel + 2, calls => by
    have ih := writeChunkAttempts_retryable w k (fuel + 1) (calls + 1)
    cases hw : w calls with
    | none => simp [writeChunkAttempts, hw, retryableExceptLast]
    | some e =>
      by_cases hr : e.retryable
      · have hne : (writeChunkAttempts w k (fuel + 1) (calls + 1)).2 ≠ [] := by
          intro h
          have := (writeChunkAttempts_length w k (fuel + 1) (calls + 1)).2 (by omega)
          rw [h] at this
          simp at this
        simp only [writeChunkAttempts, hw, hr, if_true]
        cases htr : (writeChunkAttempts w k (fuel + 1) (calls + 1)).2 with
        | nil => exact absurd htr hne
        | cons q rest =>
          rw [htr] at ih
          simp [retryableExceptLast, isRetryableError, hr, ih]
      · simp [writeChunkAttempts, hw, hr, retryableExceptLast]

theorem writeChunkAttempts_ok (w : Nat → GoErr) (k : Nat) :
    ∀ fuel calls, (writeChunkAttempts w k fuel calls).1 = .ok → 1 ≤ fuel →
      (writeChunkAttempts w k fuel calls).2.getLast? = some (k, none)
  | 0, calls => by omega
  | 1, calls => by
    cases hw : w calls with
    | none => simp [writeChunkAttempts, hw]
    | some e =>
      by_cases hr : e.retryable <;> simp [writeChunkAttempts, hw, hr]
  | fuel + 2, calls => by
    cases hw : w calls with
    | none => simp [writeChunkAttempts, hw]
    | some e =>
      by_cases hr : e.retryable
      · intro ho _
        simp only [writeChunkAttempts, hw, hr, if_true] at ho ⊢
        have hne : (writeChunkAttempts w k (fuel + 1) (calls + 1)).2 ≠ [] := by
          intro h
          have := (writeChunkAttempts_length w k (fuel + 1) (calls + 1)).2 (by omega)
          rw [h] at this
          simp at this
        rw [getLast?_cons_ne_nil _ hne]
        exact writeChunkAttempts_ok w k (fuel + 1) (calls + 1) ho (by omega)
      · simp [writeChunkAttempts, hw, hr]

theorem writeChunkAttempts_fatal (w : Nat → GoErr) (k : Nat) :
    ∀ fuel calls e, (writeChunkAttempts w k fuel calls).1 = .fatal e →
      e.retryable = false
      ∧ (writeChunkAttempts w k fuel calls).2.getLast? = some (k, some e)
  | 0, calls, e => by simp [writeChunkAttempts]
  | 1, calls, e => by
    cases hw : w calls with
    | none => simp [writeChunkAttempts, hw]
    | some e' =>
      by_cases hr : e'.retryable <;> simp [writeChunkAttempts, hw, hr]
      rintro rfl
      simpa using hr
  | fuel + 2, calls, e => by
    cases hw : w calls with
    | none => simp [writeChunkAttempts, hw]
    | some e' =>
      by_cases hr : e'.retryable
      · intro hf
        simp only [writeChunkAttempts, hw, hr, if_true] at hf ⊢
        have ih := writeChunkAttempts_fatal w k (fuel + 1) (calls + 1) e hf
        have hne : (writeChunkAttempts w k (fuel + 1) (calls + 1)).2 ≠ [] := by
          intro h
          rw [h] at ih
          simp at ih
        rw [getLast?_cons_ne_nil _ hne]
        exact ih
      · simp [writeChunkAttempts, hw, hr]
        rintro rfl
        simpa using hr

theorem writeChunkAttempts_exhausted (w : Nat → GoErr) (k : Nat) :
    ∀ fuel calls r, (writeChunkAttempts w k fuel calls).1 = .exhausted r →
      (writeChunkAttempts w k fuel calls).2.length = fuel
      ∧ isRetryableError r = true
  | 0, calls, r => by simp [writeChunkAttempts]
  | 1, calls, r => by
    cases hw : w calls with
    | none => simp [writeChunkAttempts, hw]
    | some e =>
      by_cases hr : e.retryable <;> simp [writeChunkAttempts, hw, hr]
      rintro rfl
      simpa [isRetryableError] using hr
  | fuel + 2, calls, r => by
    cases hw : w calls with
    | none => simp [writeChunkAttempts, hw]
    | some e =>
      by_cases hr : e.retryable
      · intro hx
        simp only [writeChunkAttempts, hw, hr, if_true] at hx ⊢
        have ih := writeChunkAttempts_exhausted w k (fuel + 1) (calls + 1) r hx
        simp [ih.1, ih.2]
      · simp [writeChunkAttempts, hw, hr]

theorem getLast?_append_ne_nil {α : Type} (l1 : List α) {l2 : List α}
    (h : l2 ≠ []) : (l1 ++ l2).getLast? = l2.getLast? := by
  rw [List.getLast?_append]
  cases hl : l2.getLast? with
  | none => exact absurd (List.getLast?_eq_none_iff.mp hl) h
  | some a => rfl

theorem chunkCalls_all_eq {k : Nat} {l : List (Nat × GoErr)}
    (h : ∀ p ∈ l, p.1 = k) : chunkCalls k l = l :=
  List.filter_eq_self.mpr (fun p hp => by simp [h p hp])

theorem chunkCalls_all_ne {k : Nat} {l : List (Nat × GoErr)}
    (h : ∀ p ∈ l, p.1 ≠ k) : chunkCalls k l = [] :=
  List.filter_eq_nil_iff.mpr (fun p hp => by simp [h p hp])

theorem pairwise_le_const {c : Nat} :
    ∀ {l : List Nat}, (∀ a ∈ l, a = c) → l.Pairwise (fun a b => a ≤ b)
  | [], _ => List.Pairwise.nil
  | a :: l, h => by
    refine List.Pairwise.cons ?_ (pairwise_le_const (fun b hb => h b (by simp [hb])))
    intro b hb
    rw [h a (by simp), h b (by simp [hb])]

theorem writeRowsLoop_fst_ge {ρ : Type} (w : Nat → GoErr) (tbl : List Char) :
    ∀ (chunks : List ρ) (idx calls : Nat),
      ∀ p ∈ (writeRowsLoop w tbl chunks idx calls).2, idx ≤ p.1
  | [], idx, calls => by simp [writeRowsLoop]
  | _ :: rest, idx, calls => by
    intro p hp
    cases hc : (writeChunkAttempts w idx maxRetryTimes calls).1 with
    | ok =>
      simp only [writeRowsLoop, hc, List.mem_append] at hp
      rcases hp with hp | hp
      · exact (writeChunkAttempts_fst w idx maxRetryTimes calls p hp).ge
      · have := writeRowsLoop_fst_ge w tbl rest (idx + 1)
          (calls + (writeChunkAttempts w idx maxRetryTimes calls).2.length) p hp
        omega
    | fatal e =>
      simp only [writeRowsLoop, hc] at hp
      exact (writeChunkAttempts_fst w idx maxRetryTimes calls p hp).ge
    | exhausted e =>
      simp only [writeRowsLoop, hc] at hp
      exact (writeChunkAttempts_fst w idx maxRetryTimes calls p hp).ge

theorem writeRowsLoop_chunkCalls_le {ρ : Type} (w : Nat → GoErr) (tbl : List Char) :
    ∀ (chunks : List ρ) (idx calls k : Nat),
      (chunkCalls k (writeRowsLoop w tbl chunks idx calls).2).length ≤ maxRetryTimes
  | [], idx, calls, k => by simp [writeRowsLoop, chunkCalls]
  | _ :: rest, idx, calls, k => by
    have hchunk := writeChunkAttempts_fst w idx maxRetryTimes calls
    have hlen := (writeChunkAttempts_length w idx maxRetryTimes calls).1
    cases hc : (writeChunkAttempts w idx maxRetryTimes calls).1 with
    | ok =>
      simp only [writeRowsLoop, hc]
      rw [chunkCalls, List.filter_append, ← chunkCalls, ← chunkCalls]
      by_cases hk : k = idx
      · rw [chunkCalls_all_eq (fun p hp => (hchunk p hp).trans hk.symm),
          chunkCalls_all_ne (fun p hp => by
            have := writeRowsLoop_fst_ge w tbl rest (idx + 1)
              (calls + (writeChunkAttempts w idx maxRetryTimes calls).2.length) p hp
            omega)]
        simpa using hlen
      · rw [chunkCalls_all_ne (fun p hp => by
          rw [hchunk p hp]; exact fun he => hk he.symm)]
        simpa using writeRowsLoop_chunkCalls_le w tbl rest (idx + 1)
          (calls + (writeChunkAttempts w idx maxRetryTimes calls).2.length) k
    | fatal e =>
      simp only [writeRowsLoop, hc]
      by_cases hk : k = idx
      · rw [chunkCalls_all_eq (fun p hp => (hchunk p hp).trans hk.symm)]
        exact hlen
      · rw [chunkCalls_all_ne (fun p hp => by
          rw [hchunk p hp]; exact fun he => hk he.symm)]
        simp
    | exhausted e =>
      simp only [writeRowsLoop, hc]
      by_cases hk : k = idx
      · rw [chunkCalls_all_eq (fun p hp => (hchunk p hp).trans hk.symm)]
        exact hlen
      · rw [chunkCalls_all_ne (fun p hp => by
          rw [hchunk p hp]; exact fun he => hk he.symm)]
        simp

theorem writeRowsLoop_sorted {ρ : Type} (w : Nat → GoErr) (tbl : List Char) :
    ∀ (chunks : List ρ) (idx calls : Nat),
      ((writeRowsLoop w tbl chunks idx calls).2.map Prod.fst).Pairwise
        (fun a b => a ≤ b)
  | [], idx, calls => by simp [writeRowsLoop]
  | _ :: rest, idx, calls => by
    have hchunk := writeChunkAttempts_fst w idx maxRetryTimes calls
    have hconst : ((writeChunkAttempts w idx maxRetryTimes calls).2.map
        Prod.fst).Pairwise (fun a b => a ≤ b) :=
      pairwise_le_const (fun a ha => by
        obtain ⟨p, hp, rfl⟩ := List.mem_map.mp ha
        exact hchunk p hp)
    cases hc : (writeChunkAttempts w idx maxRetryTimes calls).1 with
    | ok =>
      simp only [writeRowsLoop, hc, List.map_append]
      rw [List.pairwise_append]
      refine ⟨hconst, writeRowsLoop_sorted w tbl rest (idx + 1) _, ?_⟩
      intro a ha b hb
      obtain ⟨p, hp, rfl⟩ := List.mem_map.mp ha
      obtain ⟨q, hq, rfl⟩ := List.mem_map.mp hb
      have h1 := hchunk p hp
      have h2 := writeRowsLoop_fst_ge w tbl rest (idx + 1) _ q hq
      omega
    | fatal e => simpa only [writeRowsLoop, hc] using hconst
    | exhausted e => simpa only [writeRowsLoop, hc] using hconst

theorem writeRowsLoop_chunk_retryable {ρ : Type} (w : Nat → GoErr) (tbl : List Char) :
    ∀ (chunks : List ρ) (idx calls k : Nat),
      retryableExceptLast
        (chunkCalls k (writeRowsLoop w tbl chunks idx calls).2) = true
  | [], idx, calls, k => by simp [writeRowsLoop, chunkCalls, retryableExceptLast]
  | _ :: rest, idx, calls, k => by
    have hchunk := writeChunkAttempts_fst w idx maxRetryTimes calls
    have hretry := writeChunkAttempts_retryable w idx maxRetryTimes calls
    cases hc : (writeChunkAttempts w idx maxRetryTimes calls).1 with
    | ok =>
      simp only [writeRowsLoop, hc]
      rw [chunkCalls, List.filter_append, ← chunkCalls, ← chunkCalls]
      by_cases hk : k = idx
      · rw [chunkCalls_all_eq (fun p hp => (hchunk p hp).trans hk.symm),
          chunkCalls_all_ne (fun p hp => by
            have := writeRowsLoop_fst_ge w tbl rest (idx + 1)
              (calls + (writeChunkAttempts w idx maxRetryTimes calls).2.length) p hp
            omega)]
        simpa using hretry
      · rw [chunkCalls_all_ne (fun p hp => by
          rw [hchunk p hp]; exact fun he => hk he.symm)]
        simpa using writeRowsLoop_chunk_retryable w tbl rest (idx + 1)
          (calls + (writeChunkAttempts w idx maxRetryTimes calls).2.length) k
    | fatal e =>
      simp only [writeRowsLoop, hc]
      by_cases hk : k = idx
      · rw [chunkCalls_all_eq (fun p hp => (hchunk p hp).trans hk.symm)]
        exact hretry
      · rw [chunkCalls_all_ne (fun p hp => by
          rw [hchunk p hp]; exact fun he => hk he.symm)]
        rfl
    | exhausted e =>
      simp only [writeRowsLoop, hc]
      by_cases hk : k = idx
      · rw [chunkCalls_all_eq (fun p hp => (hchunk p hp).trans hk.symm)]
        exact hretry
      · rw [chunkCalls_all_ne (fun p hp => by
          rw [hchunk p hp]; exact fun he => hk he.symm)]
        rfl

theorem writeRowsLoop_err {ρ : Type} (w : Nat → GoErr) (tbl : List Char) :
    ∀ (chunks : List ρ) (idx calls : Nat) (e : Err),
      (writeRowsLoop w tbl chunks idx calls).1 = .err e →
      e.retryable = false
      ∧ ∃ k, (writeRowsLoop w tbl chunks idx calls).2.getLast?
          = some (k, some e)
  | [], idx, calls, e => by simp [writeRowsLoop]
  | _ :: rest, idx, calls, e => by
    intro hres
    cases hc : (writeChunkAttempts w idx maxRetryTimes calls).1 with
    | ok =>
      simp only [writeRowsLoop, hc] at hres ⊢
      have ih := writeRowsLoop_err w tbl rest (idx + 1)
        (calls + (writeChunkAttempts w idx maxRetryTimes calls).2.length) e hres
      obtain ⟨hret, k, hlast⟩ := ih
      have hne : (writeRowsLoop w tbl rest (idx + 1)
          (calls + (writeChunkAttempts w idx maxRetryTimes calls).2.length)).2 ≠ [] := by
        intro hnil
        rw [hnil] at hlast
        simp at hlast
      rw [getLast?_append_ne_nil _ hne]
      exact ⟨hret, k, hlast⟩
    | fatal e' =>
      simp only [writeRowsLoop, hc, WriteRowsResult.err.injEq] at hres ⊢
      have hf := writeChunkAttempts_fatal w idx maxRetryTimes calls e' hc
      exact ⟨hres ▸ hf.1, idx, hres ▸ hf.2⟩
    | exhausted e' => simp [writeRowsLoop, hc] at hres

theorem writeRowsLoop_annotated {ρ : Type} (w : Nat → GoErr) (tbl : List Char) :
    ∀ (chunks : List ρ) (idx calls : Nat) (r : GoErr) (t : List Char) (b : Nat),
      (writeRowsLoop w tbl chunks idx calls).1 = .annotated r t b →
      t = tbl ∧ b = maxRetryTimes ∧ isRetryableError r = true
  | [], idx, calls, r, t, b => by simp [writeRowsLoop]
  | _ :: rest, idx, calls, r, t, b => by
    intro hres
    cases hc : (writeChunkAttempts w idx maxRetryTimes calls).1 with
    | ok =>
      simp only [writeRowsLoop, hc] at hres
      exact writeRowsLoop_annotated w tbl rest (idx + 1)
        (calls + (writeChunkAttempts w idx maxRetryTimes calls).2.length) r t b hres
    | fatal e' => simp [writeRowsLoop, hc] at hres
    | exhausted e' =>
      simp only [writeRowsLoop, hc, WriteRowsResult.annotated.injEq] at hres
      obtain ⟨rfl, rfl, rfl⟩ := hres
      exact ⟨rfl, rfl,
        (writeChunkAttempts_exhausted w idx maxRetryTimes calls _ hc).2⟩

theorem writeRowsLoop_ok_mem {ρ : Type} (w : Nat → GoErr) (tbl : List Char) :
    ∀ (chunks : List ρ) (idx calls : Nat),
      (writeRowsLoop w tbl chunks idx calls).1 = .ok →
      ∀ j, idx ≤ j → j < idx + chunks.length →
        (j, none) ∈ (writeRowsLoop w tbl chunks idx calls).2
  | [], idx, calls => by simp [writeRowsLoop]
  | _ :: rest, idx, calls => by
    intro hres j hj1 hj2
    cases hc : (writeChunkAttempts w idx maxRetryTimes calls).1 with
    | ok =>
      simp only [writeRowsLoop, hc] at hres ⊢
      rw [List.mem_append]
      by_cases hj : j = idx
      · subst hj
        exact .inl (List.mem_of_mem_getLast?
          (writeChunkAttempts_ok w j maxRetryTimes calls hc (by decide)))
      · refine .inr (writeRowsLoop_ok_mem w tbl rest (idx + 1)
          (calls + (writeChunkAttempts w idx maxRetryTimes calls).2.length)
          hres j (by omega) (by simp at hj2 ⊢; omega))
    | fatal e' => simp [writeRowsLoop, hc] at hres
    | exhausted e' => simp [writeRowsLoop, hc] at hres

/-- C3: for the chunk list produced by splitting the rows with the
backend's maximum chunk size, `WriteRows` issues at most `maxRetryTimes`
(= 3) backend write calls per chunk, re-attempting a chunk only after a
retryable error (every call for a chunk except its last received a
retryable error); a non-retryable error is returned to the caller
immediately (it is the last backend call of the trace); exhausting the
retries returns an error annotated with the table name and the retry bound
3 (wrapping a retryable error); chunks are written sequentially in split
order (the chunk indices of the trace are non-decreasing); and on success
every chunk had a final successful write. -/
theorem c3_writeRows_retry {ρ : Type} (R : RowsModel ρ) (w : Nat → GoErr)
    (tableName : List Char) (maxChunkSize : Nat) (rows : ρ) :
    (∀ k, (chunkCalls k (WriteRows R w tableName maxChunkSize rows).2).length
        ≤ maxRetryTimes)
    ∧ (∀ k, retryableExceptLast
        (chunkCalls k (WriteRows R w tableName maxChunkSize rows).2) = true)
    ∧ ((WriteRows R w tableName maxChunkSize rows).2.map Prod.fst).Pairwise
        (fun a b => a ≤ b)
    ∧ (∀ e, (WriteRows R w tableName maxChunkSize rows).1 = .err e →
        e.retryable = false
        ∧ ∃ k, (WriteRows R w tableName maxChunkSize rows).2.getLast?
            = some (k, some e))
    ∧ (∀ r t b, (WriteRows R w tableName maxChunkSize rows).1 = .annotated r t b →
        t = tableName ∧ b = maxRetryTimes ∧ isRetryableError r = true)
    ∧ ((WriteRows R w tableName maxChunkSize rows).1 = .ok →
        ∀ j < (R.splitIntoChunks rows maxChunkSize).length,
          (j, none) ∈ (WriteRows R w tableName maxChunkSize rows).2) := by
  simp only [WriteRows]
  exact ⟨fun k => writeRowsLoop_chunkCalls_le w tableName _ 0 0 k,
    fun k => writeRowsLoop_chunk_retryable w tableName _ 0 0 k,
    writeRowsLoop_sorted w tableName _ 0 0,
    fun e h => writeRowsLoop_err w tableName _ 0 0 e h,
    fun r t b h => writeRowsLoop_annotated w tableName _ 0 0 r t b h,
    fun h j hj => writeRowsLoop_ok_mem w tableName _ 0 0 h j (by omega) (by omega)⟩

/-- C3 witness: with two chunks and a backend that fails retryably exactly
once and then succeeds, `WriteRows` succeeds and the second chunk is
delivered. -/
theorem c3_writeRows_retry_witness :
    ((1 : Nat), (none : GoErr)) ∈
      (WriteRows (⟨fun _ _ => [(), ()]⟩ : RowsModel Unit)
        (fun c => if c = 0 then some ⟨true, 1⟩ else none) ['t'] 5 ()).2 :=
  (c3_writeRows_retry (⟨fun _ _ => [(), ()]⟩ : RowsModel Unit)
    (fun c => if c = 0 then some ⟨true, 1⟩ else none) ['t'] 5 ()).2.2.2.2.2
    rfl 1 (by decide)

end LightningBackend
